import Mathlib

/- Verification of the query-generation, recency-filtering and
near-duplicate-detection core of the Google News RSS monitoring scripts
(src/google_rss_en.py, src/google_rss_idn.py, src/google_rss_spanish.py).

Modelling conventions:
* A Python result dict {"title", "url", "published", "query"} (plus the
  defensively read "link" key of deduplicate_by_url_and_title) is the
  structure NewsRec; a missing or None-valued key behaves as the empty
  string, matching how the scripts read fields with .get(key, "") and
  Python truthiness tests.
* Python floats are modelled by exact rationals (so 0.85 is 85/100).
* str.lower and the regex class \w are modelled on the ASCII fragment
  (Char.toLower, Char.isAlphanum and the underscore).
* Clock instants are integers counting seconds; timedelta(days=d) is
  86400*d seconds. -/

/-- One collected article record, the unit that the deduplication
functions operate on. -/
structure NewsRec where
  title : String
  url : String
  link : String
  published : String
  query : String
deriving DecidableEq, Repr

/-- Python str.lower modelled characterwise on the ASCII fragment. -/
def lowerStr (s : String) : String := String.mk (s.data.map Char.toLower)

/-- Characters matched by the regex class \w (ASCII fragment):
alphanumerics and the underscore. -/
def isWordChar (c : Char) : Bool := c.isAlphanum || c = '_'

/-- Maximal runs of word characters, accumulating the current run in
reverse: this is the regex word tokenization re.findall of backslash-w-plus on the character list s. -/
def wordRunsAux : List Char → List Char → List (List Char)
  | [], cur => if cur.isEmpty then [] else [cur.reverse]
  | c :: cs, cur =>
    if isWordChar c then wordRunsAux cs (c :: cur)
    else if cur.isEmpty then wordRunsAux cs cur
    else cur.reverse :: wordRunsAux cs []

/-- normalize_title from all three scripts: the set of lowercase word
tokens of a title, i.e. the Python set of word tokens of title.lower().  The
Indonesian variant first replaces a None title by "", which on strings is
the identity. -/
def normalize_title (title : String) : Finset String :=
  ((wordRunsAux (lowerStr title).data []).map (fun l => String.mk l)).toFinset

/-- is_similar from google_rss_en.py and google_rss_spanish.py: the two
titles share at least min_common word tokens. -/
def is_similar (title1 title2 : String) (min_common : Nat) : Bool :=
  decide (min_common ≤ ((normalize_title title1) ∩ (normalize_title title2)).card)

/-- The loop body of deduplicate from google_rss_en.py and
google_rss_spanish.py, with the accepted records accumulated in unique:
a candidate is appended iff it is similar (at min_common = 4) to no
already-accepted record. -/
def dedupGo (unique : List NewsRec) : List NewsRec → List NewsRec
  | [] => unique
  | r :: rest =>
    if unique.any (fun u => is_similar r.title u.title 4) then dedupGo unique rest
    else dedupGo (unique ++ [r]) rest

/-- deduplicate from google_rss_en.py and google_rss_spanish.py. -/
def deduplicate (results : List NewsRec) : List NewsRec := dedupGo [] results

/- Model of difflib.SequenceMatcher(None, a, b).ratio() from the Python
standard library, which title_similarity in google_rss_idn.py calls with
isjunk=None and the default autojunk=True. -/

/-- The autojunk "popular" set computed by SequenceMatcher.__chain_b: for
sequences b of length at least 200, the characters occurring more than
len(b)/100 + 1 times.  With isjunk=None the junk set itself is empty. -/
def bPopular (b : List Char) : List Char :=
  if 200 ≤ b.length then b.dedup.filter (fun c => b.length / 100 + 1 < b.count c) else []

/-- One row (one value of i) of the dynamic scan inside
find_longest_match: newj2len[j] = j2len[j-1] + 1 on the positions j of
b in [blo, bhi) holding the character a[i] (popular characters are absent
from b2j), and the running best block is replaced whenever a strictly
longer match ending at (i, j) appears; j is scanned in increasing order
exactly as the sorted position lists of b2j are. -/
def flmRow (a b pop : List Char) (blo bhi i : Nat)
    (st : (Nat × Nat × Nat) × List Nat) : (Nat × Nat × Nat) × List Nat :=
  let j2len := st.2
  (List.range b.length).foldl
    (fun acc j =>
      if b.getD j ' ' = a.getD i ' ' ∧ ¬ pop.contains (b.getD j ' ')
          ∧ blo ≤ j ∧ j < bhi then
        let k := (if j = 0 then 0 else j2len.getD (j - 1) 0) + 1
        let best := if acc.1.2.2 < k then (i + 1 - k, j + 1 - k, k) else acc.1
        (best, acc.2.set j k)
      else (acc.1, acc.2.set j 0))
    (st.1, List.replicate b.length 0)

/-- The dynamic scan of find_longest_match over i in [alo, ahi), starting
from the block (alo, blo, 0). -/
def flmInner (a b pop : List Char) (alo ahi blo bhi : Nat) : Nat × Nat × Nat :=
  ((List.range' alo (ahi - alo)).foldl
    (fun st i => flmRow a b pop blo bhi i st)
    ((alo, blo, 0), List.replicate b.length 0)).1

/-- The leftward extension loop of find_longest_match: while the
characters just before the block are equal, widen it.  With isjunk=None
the junk test in the loop condition is vacuously passed.  The fuel
argument makes the loop structural; it is called with fuel bi, which
bounds the number of iterations since bi decreases to at least alo. -/
def extLeft (a b : List Char) (alo blo : Nat) :
    Nat → Nat → Nat → Nat → Nat × Nat × Nat
  | 0, bi, bj, bs => (bi, bj, bs)
  | fuel + 1, bi, bj, bs =>
    if alo < bi ∧ blo < bj ∧ a.getD (bi - 1) ' ' = b.getD (bj - 1) ' ' then
      extLeft a b alo blo fuel (bi - 1) (bj - 1) (bs + 1)
    else (bi, bj, bs)

/-- The rightward extension loop of find_longest_match, fuelled like
extLeft; it is called with fuel ahi, which bounds the iteration count
since bi + bs stays below ahi while the loop runs. -/
def extRight (a b : List Char) (ahi bhi : Nat) :
    Nat → Nat → Nat → Nat → Nat × Nat × Nat
  | 0, bi, bj, bs => (bi, bj, bs)
  | fuel + 1, bi, bj, bs =>
    if bi + bs < ahi ∧ bj + bs < bhi ∧ a.getD (bi + bs) ' ' = b.getD (bj + bs) ' ' then
      extRight a b ahi bhi fuel bi bj (bs + 1)
    else (bi, bj, bs)

/-- find_longest_match of SequenceMatcher(None, a, b) on the window
[alo, ahi) x [blo, bhi): the dynamic scan, then the two non-junk
extension loops; the two junk extension loops never fire because with
isjunk=None the junk set is empty. -/
def findLongestMatch (a b pop : List Char) (alo ahi blo bhi : Nat) : Nat × Nat × Nat :=
  let st := flmInner a b pop alo ahi blo bhi
  let st2 := extLeft a b alo blo st.1 st.1 st.2.1 st.2.2
  extRight a b ahi bhi ahi st2.1 st2.2.1 st2.2.2

/-- The window recursion of get_matching_blocks, summing the sizes of the
found blocks.  difflib processes its queue in LIFO order; the order does
not affect the sum, and the two guards on pushing subwindows are those of
the Python loop.  The fuel makes the recursion structural; the caller
passes more fuel than the number of windows that can ever be processed. -/
def mbGo (a b pop : List Char) : Nat → List (Nat × Nat × Nat × Nat) → Nat
  | 0, _ => 0
  | _ + 1, [] => 0
  | fuel + 1, (alo, ahi, blo, bhi) :: queue =>
    let r := findLongestMatch a b pop alo ahi blo bhi
    if r.2.2 = 0 then mbGo a b pop fuel queue
    else
      r.2.2 + mbGo a b pop fuel
        ((if alo < r.1 ∧ blo < r.2.1 then [(alo, r.1, blo, r.2.1)] else []) ++
         (if r.1 + r.2.2 < ahi ∧ r.2.1 + r.2.2 < bhi then
            [(r.1 + r.2.2, ahi, r.2.1 + r.2.2, bhi)] else []) ++ queue)

/-- Total size of the matching blocks of SequenceMatcher(None, a, b),
i.e. the sum M of the block sizes of get_matching_blocks.  Each window
processed with a nonempty block consumes at least one character of a, and
each processed window is either such a splitter or a leaf, so at most
2*|a|+1 windows are ever processed and the supplied fuel is ample. -/
def seqMatchTotal (a b : List Char) : Nat :=
  mbGo a b (bPopular b) (2 * (a.length + b.length) + 3) [(0, a.length, 0, b.length)]

/-- SequenceMatcher(None, a, b).ratio() = 2*M/T with T the total length
of the two sequences, as an exact rational. -/
def seqRatio (a b : String) : ℚ :=
  2 * (seqMatchTotal a.data b.data : ℚ) / ((a.data.length + b.data.length : Nat) : ℚ)

/-- SIMILARITY_RATIO = 0.85 from google_rss_idn.py, as an exact
rational. -/
def similarityThreshold : ℚ := 85 / 100

/-- title_similarity from google_rss_idn.py: 0 for an empty (or missing)
title, otherwise 0.6 times the SequenceMatcher ratio of the lowercased
titles plus 0.4 times the word-overlap ratio; the overlap branch guards
on at least one token set being nonempty, returning 0 otherwise. -/
def title_similarity (a b : String) : ℚ :=
  if a = "" ∨ b = "" then 0
  else 6 / 10 * seqRatio (lowerStr a) (lowerStr b) + 4 / 10 *
    (if normalize_title a ≠ ∅ ∨ normalize_title b ≠ ∅ then
      ((normalize_title a ∩ normalize_title b).card : ℚ) /
        ((max 1 (min (normalize_title a).card (normalize_title b).card) : Nat) : ℚ)
    else 0)

/-- The url that deduplicate_by_url_and_title extracts from a record:
it.get("url") or it.get("link") or "". -/
def effUrl (it : NewsRec) : String := if it.url = "" then it.link else it.url

/-- The inner fuzzy-title loop of deduplicate_by_url_and_title: the dup
flag ends up true iff some already-accepted record has title similarity
at least SIMILARITY_RATIO with the candidate. -/
def dup_check (unique : List NewsRec) (it : NewsRec) : Bool :=
  unique.any (fun u => decide (similarityThreshold ≤ title_similarity it.title u.title))

/-- The loop of deduplicate_by_url_and_title from google_rss_idn.py, with
the accumulated seen-URL set (as a list, membership only) and the
accepted records: a record with an empty url is skipped, a record whose
url was already accepted is skipped, a record fuzzily matching an
accepted title is skipped, and otherwise the record is accepted and its
url remembered. -/
def dedupUrlGo (seen_urls : List String) (unique : List NewsRec) :
    List NewsRec → List NewsRec
  | [] => unique
  | it :: rest =>
    if effUrl it = "" then dedupUrlGo seen_urls unique rest
    else if effUrl it ∈ seen_urls then dedupUrlGo seen_urls unique rest
    else if dup_check unique it then dedupUrlGo seen_urls unique rest
    else dedupUrlGo (effUrl it :: seen_urls) (unique ++ [it]) rest

/-- deduplicate_by_url_and_title from google_rss_idn.py. -/
def deduplicate_by_url_and_title (items : List NewsRec) : List NewsRec :=
  dedupUrlGo [] [] items

/-- The loop of deduplicate_by_url_and_title together with its seen-URL
set: the same branches as dedupUrlGo, returning the whole final state
(seen urls, accepted records).  This is used to reason about the state
the loop has reached after any prefix of the input. -/
def dedupUrlState (seen_urls : List String) (unique : List NewsRec) :
    List NewsRec → List String × List NewsRec
  | [] => (seen_urls, unique)
  | it :: rest =>
    if effUrl it = "" then dedupUrlState seen_urls unique rest
    else if effUrl it ∈ seen_urls then dedupUrlState seen_urls unique rest
    else if dup_check unique it then dedupUrlState seen_urls unique rest
    else dedupUrlState (effUrl it :: seen_urls) (unique ++ [it]) rest

/-- One feed entry as far as the recency filter reads it: an optional
parsed publication instant (the published_parsed field of feedparser, reduced to
epoch seconds).  A missing attribute and a falsy one behave alike. -/
structure FeedEntry where
  published_parsed : Option Int
deriving DecidableEq, Repr

/-- is_recent from google_rss_en.py, google_rss_idn.py and
google_rss_spanish.py (identical in all three, with different default
day windows): true iff a parsed publication instant exists and lies at
or after now minus days whole days. -/
def is_recent (entry : FeedEntry) (now : Int) (days : Nat) : Bool :=
  match entry.published_parsed with
  | some t => decide (now - 86400 * (days : Int) ≤ t)
  | none => false

/- Model of urllib.parse.quote_plus from the Python standard library,
which build_query in google_rss_idn.py applies to the whole assembled
query string. -/

/-- Characters quote always leaves intact: ASCII alphanumerics and
underscore, dot, dash, tilde. -/
def qpSafe (c : Char) : Bool :=
  c.isAlphanum || c = '_' || c = '.' || c = '-' || c = '~'

/-- Uppercase hexadecimal digit, as used by the %XX escapes of quote. -/
def hexDigitChar (n : Nat) : Char :=
  if n < 10 then Char.ofNat (48 + n) else Char.ofNat (55 + n)

/-- The UTF-8 encoding of one character, as the byte values quote
percent-escapes. -/
def utf8Bytes (c : Char) : List Nat :=
  let n := c.toNat
  if n < 128 then [n]
  else if n < 2048 then [192 + n / 64, 128 + n % 64]
  else if n < 65536 then [224 + n / 4096, 128 + n / 64 % 64, 128 + n % 64]
  else [240 + n / 262144, 128 + n / 4096 % 64, 128 + n / 64 % 64, 128 + n % 64]

/-- quote_plus on one character: safe characters pass through, a space
becomes a plus, and every other character is replaced by the %XX escapes
of its UTF-8 bytes. -/
def qpChar (c : Char) : List Char :=
  if qpSafe c then [c]
  else if c = ' ' then ['+']
  else (utf8Bytes c).flatMap (fun bt => ['%', hexDigitChar (bt / 16), hexDigitChar (bt % 16)])

/-- urllib.parse.quote_plus on a whole string. -/
def quote_plus (s : String) : String := String.mk (s.data.flatMap qpChar)

/-- Python " ".join, as build_query uses it on its parts list. -/
def spaceJoin : List String → String
  | [] => ""
  | [a] => a
  | a :: b :: rest => a ++ " " ++ spaceJoin (b :: rest)

/-- build_query from google_rss_idn.py: join the parts with spaces and
URL-encode the whole resulting string with quote_plus. -/
def build_query (parts : List String) : String :=
  quote_plus (spaceJoin parts)

/-- The query-to-URL step of fetch_news in google_rss_en.py and
google_rss_spanish.py: query.replace(" ", "+").  Since the pattern is a
single character, str.replace is the character map sending each space to
a plus and leaving every other character unchanged. -/
def en_fetch_query_encoding (query : String) : String :=
  String.mk (query.data.map (fun c => if c = ' ' then '+' else c))

/-- Python " OR ".join. -/
def orJoin : List String → String
  | [] => ""
  | [a] => a
  | a :: b :: rest => a ++ " OR " ++ orJoin (b :: rest)

/-- The parenthesized alias disjunction built inside
company_queries_from_aliases: quote each alias and join with OR. -/
def aliasPart (aliases : List String) : String :=
  orJoin (aliases.map (fun a => "\"" ++ a ++ "\""))

/-- company_queries_from_aliases from google_rss_idn.py.  The Python dict
of aliases iterates in insertion order and is modelled as an association
list; for each company and each issue, three query strings are appended
in the order of the source. -/
def company_queries_from_aliases (aliases_map : List (String × List String))
    (issues : List String) : List String :=
  aliases_map.flatMap (fun ca =>
    issues.flatMap (fun issue =>
      ["(" ++ aliasPart ca.2 ++ ") " ++ issue ++ " sawit",
       "(" ++ aliasPart ca.2 ++ ") " ++ issue ++ " \"minyak sawit\"",
       "(" ++ aliasPart ca.2 ++ ") " ++ issue]))

/-- Token-overlap ratio in the words of the specification: size of the
token intersection over max(1, min of the token-set sizes).  This is the
specification-side counterpart of the overlap branch inside
title_similarity and is compared against it in the theorems below. -/
def overlap_ratio (a b : String) : ℚ :=
  ((normalize_title a ∩ normalize_title b).card : ℚ) /
    ((max 1 (min (normalize_title a).card (normalize_title b).card) : Nat) : ℚ)

/- Helper lemmas about the word-overlap deduplication loop. -/

/-- dedupGo only ever appends to the accumulator, and what it appends is
a subsequence of its input. -/
theorem dedupGo_eq_append (rs : List NewsRec) :
    ∀ acc : List NewsRec, ∃ t, dedupGo acc rs = acc ++ t ∧ t.Sublist rs := by
  induction rs with
  | nil => intro acc; exact ⟨[], by simp [dedupGo]⟩
  | cons r rest ih =>
    intro acc
    by_cases h : acc.any (fun u => is_similar r.title u.title 4) = true
    · obtain ⟨t, ht, hs⟩ := ih acc
      exact ⟨t, by simp [dedupGo, h, ht], hs.cons r⟩
    · obtain ⟨t, ht, hs⟩ := ih (acc ++ [r])
      refine ⟨r :: t, ?_, hs.cons₂ r⟩
      simp only [dedupGo, h, if_false, Bool.false_eq_true]
      simp only [ht, List.append_assoc, List.singleton_append]

/-- Every record accepted by dedupGo is dissimilar to every record
accepted before it, provided the accumulator already had that shape. -/
theorem dedupGo_pairwise (rs : List NewsRec) :
    ∀ acc : List NewsRec,
      acc.Pairwise (fun u v => is_similar v.title u.title 4 = false) →
      (dedupGo acc rs).Pairwise (fun u v => is_similar v.title u.title 4 = false) := by
  induction rs with
  | nil => intro acc h; simpa [dedupGo] using h
  | cons r rest ih =>
    intro acc hacc
    by_cases h : acc.any (fun u => is_similar r.title u.title 4) = true
    · simpa [dedupGo, h] using ih acc hacc
    · have hall : ∀ u ∈ acc, is_similar r.title u.title 4 = false := by
        intro u hu
        by_contra hne
        exact h (List.any_eq_true.mpr ⟨u, hu, by simpa using hne⟩)
      have hacc2 : (acc ++ [r]).Pairwise
          (fun u v => is_similar v.title u.title 4 = false) := by
        refine List.pairwise_append.mpr ⟨hacc, by simp, ?_⟩
        intro a ha b hb
        simp only [List.mem_singleton] at hb
        subst hb
        exact hall a ha
      simpa [dedupGo, h] using ih (acc ++ [r]) hacc2

/-- Every input record is either accepted by dedupGo or similar to some
accepted record. -/
theorem dedupGo_complete (rs : List NewsRec) :
    ∀ acc : List NewsRec, ∀ r ∈ rs,
      r ∈ dedupGo acc rs ∨
        ∃ u ∈ dedupGo acc rs, is_similar r.title u.title 4 = true := by
  induction rs with
  | nil => intro acc r hr; cases hr
  | cons r0 rest ih =>
    intro acc r hr
    by_cases h : acc.any (fun u => is_similar r0.title u.title 4) = true
    · rcases List.mem_cons.mp hr with hr | hr
      · subst hr
        obtain ⟨u, hu, hsim⟩ := List.any_eq_true.mp h
        obtain ⟨t, ht, _⟩ := dedupGo_eq_append rest acc
        refine Or.inr ⟨u, ?_, hsim⟩
        simp [dedupGo, h, ht, hu]
      · have := ih acc r hr
        simpa [dedupGo, h] using this
    · rcases List.mem_cons.mp hr with hr | hr
      · subst hr
        obtain ⟨t, ht, _⟩ := dedupGo_eq_append rest (acc ++ [r])
        refine Or.inl ?_
        simp [dedupGo, h, ht]
      · have := ih (acc ++ [r0]) r hr
        simpa [dedupGo, h] using this

/-- A list that is already pairwise dissimilar passes through dedupGo
unchanged, provided nothing in the accumulator is similar to it. -/
theorem dedupGo_fixed (l : List NewsRec) :
    ∀ acc : List NewsRec,
      (∀ u ∈ acc, ∀ v ∈ l, is_similar v.title u.title 4 = false) →
      l.Pairwise (fun u v => is_similar v.title u.title 4 = false) →
      dedupGo acc l = acc ++ l := by
  induction l with
  | nil => intro acc _ _; simp [dedupGo]
  | cons v tail ih =>
    intro acc hacc hpw
    have hany : ¬ acc.any (fun u => is_similar v.title u.title 4) = true := by
      intro h
      obtain ⟨u, hu, hsim⟩ := List.any_eq_true.mp h
      have := hacc u hu v (by simp)
      simp [this] at hsim
    rcases List.pairwise_cons.mp hpw with ⟨hhead, htail⟩
    have hacc2 : ∀ u ∈ acc ++ [v], ∀ w ∈ tail,
        is_similar w.title u.title 4 = false := by
      intro u hu w hw
      rcases List.mem_append.mp hu with hu | hu
      · exact hacc u hu w (List.mem_cons_of_mem v hw)
      · simp only [List.mem_singleton] at hu
        subst hu
        exact hhead w hw
    calc dedupGo acc (v :: tail)
        = dedupGo (acc ++ [v]) tail := by simp [dedupGo, hany]
      _ = (acc ++ [v]) ++ tail := ih (acc ++ [v]) hacc2 htail
      _ = acc ++ (v :: tail) := by simp

/- Helper lemmas about the URL-aware deduplication loop. -/

/-- dedupUrlGo only ever appends to the accepted list, and what it
appends is a subsequence of its input. -/
theorem dedupUrlGo_eq_append (items : List NewsRec) :
    ∀ (seen : List String) (unique : List NewsRec),
      ∃ t, dedupUrlGo seen unique items = unique ++ t ∧ t.Sublist items := by
  induction items with
  | nil => intro seen unique; exact ⟨[], by simp [dedupUrlGo]⟩
  | cons it rest ih =>
    intro seen unique
    by_cases h1 : effUrl it = ""
    · obtain ⟨t, ht, hs⟩ := ih seen unique
      exact ⟨t, by simp [dedupUrlGo, h1, ht], hs.cons it⟩
    · by_cases h2 : effUrl it ∈ seen
      · obtain ⟨t, ht, hs⟩ := ih seen unique
        exact ⟨t, by simp [dedupUrlGo, h1, h2, ht], hs.cons it⟩
      · by_cases h3 : dup_check unique it = true
        · obtain ⟨t, ht, hs⟩ := ih seen unique
          exact ⟨t, by simp [dedupUrlGo, h1, h2, h3, ht], hs.cons it⟩
        · obtain ⟨t, ht, hs⟩ := ih (effUrl it :: seen) (unique ++ [it])
          refine ⟨it :: t, ?_, hs.cons₂ it⟩
          simp only [dedupUrlGo, h1, h2, h3, if_false, ite_false, if_neg,
            Bool.false_eq_true, not_false_eq_true]
          simp only [ht, List.append_assoc, List.singleton_append]

/-- Main invariant of dedupUrlGo: starting from a state in which the
seen-URL set is exactly the set of urls of the accepted records, all
accepted urls are nonempty and the accepted records are pairwise
compatible, the final accepted list is pairwise compatible (distinct
urls, fuzzy similarity below the threshold), all its urls are nonempty,
and every input record is either accepted, url-less, url-equal to an
accepted record, or fuzzily similar to an accepted record. -/
theorem dedupUrlGo_main (items : List NewsRec) :
    ∀ (seen : List String) (unique : List NewsRec),
      (∀ u ∈ unique, effUrl u ∈ seen) →
      (∀ s ∈ seen, ∃ u ∈ unique, effUrl u = s) →
      (∀ u ∈ unique, effUrl u ≠ "") →
      unique.Pairwise (fun u v =>
        effUrl v ≠ effUrl u ∧ title_similarity v.title u.title < similarityThreshold) →
      ((dedupUrlGo seen unique items).Pairwise (fun u v =>
          effUrl v ≠ effUrl u ∧ title_similarity v.title u.title < similarityThreshold)
        ∧ (∀ r ∈ dedupUrlGo seen unique items, effUrl r ≠ "")
        ∧ ∀ r ∈ items, r ∈ dedupUrlGo seen unique items ∨ effUrl r = "" ∨
            (∃ u ∈ dedupUrlGo seen unique items, effUrl u = effUrl r) ∨
            (∃ u ∈ dedupUrlGo seen unique items,
              similarityThreshold ≤ title_similarity r.title u.title)) := by
  induction items with
  | nil =>
    intro seen unique _ _ hne hpw
    refine ⟨by simpa [dedupUrlGo] using hpw, by simpa [dedupUrlGo] using hne, ?_⟩
    intro r hr; cases hr
  | cons it rest ih =>
    intro seen unique hseen hrev hne hpw
    by_cases h1 : effUrl it = ""
    · have step : dedupUrlGo seen unique (it :: rest) = dedupUrlGo seen unique rest := by
        simp [dedupUrlGo, h1]
      obtain ⟨p1, p2, p3⟩ := ih seen unique hseen hrev hne hpw
      refine ⟨step ▸ p1, step ▸ p2, ?_⟩
      intro r hr
      rcases List.mem_cons.mp hr with hr | hr
      · subst hr; right; left; exact h1
      · rw [step]; exact p3 r hr
    · by_cases h2 : effUrl it ∈ seen
      · have step : dedupUrlGo seen unique (it :: rest) = dedupUrlGo seen unique rest := by
          simp [dedupUrlGo, h1, h2]
        obtain ⟨p1, p2, p3⟩ := ih seen unique hseen hrev hne hpw
        refine ⟨step ▸ p1, step ▸ p2, ?_⟩
        intro r hr
        rcases List.mem_cons.mp hr with hr | hr
        · subst hr
          obtain ⟨u, hu, hu2⟩ := hrev (effUrl r) h2
          obtain ⟨t, ht, _⟩ := dedupUrlGo_eq_append rest seen unique
          right; right; left
          exact ⟨u, by rw [step, ht]; exact List.mem_append_left t hu, hu2⟩
        · rw [step]; exact p3 r hr
      · by_cases h3 : dup_check unique it = true
        · have step : dedupUrlGo seen unique (it :: rest) = dedupUrlGo seen unique rest := by
            simp [dedupUrlGo, h1, h2, h3]
          obtain ⟨p1, p2, p3⟩ := ih seen unique hseen hrev hne hpw
          refine ⟨step ▸ p1, step ▸ p2, ?_⟩
          intro r hr
          rcases List.mem_cons.mp hr with hr | hr
          · subst hr
            obtain ⟨u, hu, hsim⟩ := List.any_eq_true.mp h3
            obtain ⟨t, ht, _⟩ := dedupUrlGo_eq_append rest seen unique
            right; right; right
            exact ⟨u, by rw [step, ht]; exact List.mem_append_left t hu,
              of_decide_eq_true hsim⟩
          · rw [step]; exact p3 r hr
        · have hnotsim : ∀ u ∈ unique,
              title_similarity it.title u.title < similarityThreshold := by
            intro u hu
            by_contra hge
            exact h3 (List.any_eq_true.mpr ⟨u, hu, decide_eq_true (not_lt.mp hge)⟩)
          have step : dedupUrlGo seen unique (it :: rest)
              = dedupUrlGo (effUrl it :: seen) (unique ++ [it]) rest := by
            simp [dedupUrlGo, h1, h2, h3]
          have hseen2 : ∀ u ∈ unique ++ [it], effUrl u ∈ effUrl it :: seen := by
            intro u hu
            rcases List.mem_append.mp hu with hu | hu
            · exact List.mem_cons_of_mem _ (hseen u hu)
            · simp only [List.mem_singleton] at hu; subst hu; exact List.mem_cons_self _ _
          have hrev2 : ∀ s ∈ effUrl it :: seen, ∃ u ∈ unique ++ [it], effUrl u = s := by
            intro s hs
            rcases List.mem_cons.mp hs with hs | hs
            · exact ⟨it, by simp, hs.symm⟩
            · obtain ⟨u, hu, hu2⟩ := hrev s hs
              exact ⟨u, List.mem_append_left _ hu, hu2⟩
          have hne2 : ∀ u ∈ unique ++ [it], effUrl u ≠ "" := by
            intro u hu
            rcases List.mem_append.mp hu with hu | hu
            · exact hne u hu
            · simp only [List.mem_singleton] at hu; subst hu; exact h1
          have hpw2 : (unique ++ [it]).Pairwise (fun u v =>
              effUrl v ≠ effUrl u ∧ title_similarity v.title u.title < similarityThreshold) := by
            refine List.pairwise_append.mpr ⟨hpw, by simp, ?_⟩
            intro a ha b hb
            simp only [List.mem_singleton] at hb; subst hb
            exact ⟨fun he => h2 (he ▸ hseen a ha), hnotsim a ha⟩
          obtain ⟨p1, p2, p3⟩ := ih (effUrl it :: seen) (unique ++ [it]) hseen2 hrev2 hne2 hpw2
          refine ⟨step ▸ p1, step ▸ p2, ?_⟩
          intro r hr
          rcases List.mem_cons.mp hr with hr | hr
          · subst hr
            obtain ⟨t, ht, _⟩ := dedupUrlGo_eq_append rest (effUrl r :: seen) (unique ++ [r])
            left
            rw [step, ht]
            exact List.mem_append_left t (List.mem_append_right unique (by simp))
          · rw [step]; exact p3 r hr

/-- A list that already satisfies the accepted-shape of
deduplicate_by_url_and_title passes through dedupUrlGo unchanged. -/
theorem dedupUrlGo_fixed (l : List NewsRec) :
    ∀ (seen : List String) (unique : List NewsRec),
      (∀ v ∈ l, effUrl v ≠ "") →
      l.Pairwise (fun u v =>
        effUrl v ≠ effUrl u ∧ title_similarity v.title u.title < similarityThreshold) →
      (∀ v ∈ l, effUrl v ∉ seen) →
      (∀ u ∈ unique, ∀ v ∈ l, title_similarity v.title u.title < similarityThreshold) →
      dedupUrlGo seen unique l = unique ++ l := by
  induction l with
  | nil => intro seen unique _ _ _ _; simp [dedupUrlGo]
  | cons v tail ih =>
    intro seen unique hne hpw hseen hsim
    have h1 : ¬ effUrl v = "" := hne v (by simp)
    have h2 : effUrl v ∉ seen := hseen v (by simp)
    have h3 : ¬ dup_check unique v = true := by
      intro h
      obtain ⟨u, hu, hd⟩ := List.any_eq_true.mp h
      exact absurd (hsim u hu v (by simp)) (not_lt.mpr (of_decide_eq_true hd))
    rcases List.pairwise_cons.mp hpw with ⟨hhead, htail⟩
    have hne2 : ∀ w ∈ tail, effUrl w ≠ "" := fun w hw => hne w (List.mem_cons_of_mem v hw)
    have hseen2 : ∀ w ∈ tail, effUrl w ∉ effUrl v :: seen := by
      intro w hw hmem
      rcases List.mem_cons.mp hmem with hmem | hmem
      · exact (hhead w hw).1 hmem
      · exact hseen w (List.mem_cons_of_mem v hw) hmem
    have hsim2 : ∀ u ∈ unique ++ [v], ∀ w ∈ tail,
        title_similarity w.title u.title < similarityThreshold := by
      intro u hu w hw
      rcases List.mem_append.mp hu with hu | hu
      · exact hsim u hu w (List.mem_cons_of_mem v hw)
      · simp only [List.mem_singleton] at hu; subst hu
        exact (hhead w hw).2
    calc dedupUrlGo seen unique (v :: tail)
        = dedupUrlGo (effUrl v :: seen) (unique ++ [v]) tail := by
          simp [dedupUrlGo, h1, h2, h3]
      _ = (unique ++ [v]) ++ tail := ih (effUrl v :: seen) (unique ++ [v]) hne2 htail hseen2 hsim2
      _ = unique ++ (v :: tail) := by simp

/-- dedupGo processes a concatenation by processing the two parts in
sequence: the accepted list after the first part is the accumulator for
the second. -/
theorem dedupGo_append (l1 l2 : List NewsRec) :
    ∀ acc : List NewsRec, dedupGo acc (l1 ++ l2) = dedupGo (dedupGo acc l1) l2 := by
  induction l1 with
  | nil => intro acc; simp [dedupGo]
  | cons r rest ih =>
    intro acc
    by_cases h : acc.any (fun u => is_similar r.title u.title 4) = true
    · simp [dedupGo, h, ih]
    · simp [dedupGo, h, ih]

/-- dedupUrlGo is the accepted-records component of dedupUrlState. -/
theorem dedupUrlGo_eq_state (items : List NewsRec) :
    ∀ (seen : List String) (unique : List NewsRec),
      dedupUrlGo seen unique items = (dedupUrlState seen unique items).2 := by
  induction items with
  | nil => intro seen unique; simp [dedupUrlGo, dedupUrlState]
  | cons it rest ih =>
    intro seen unique
    by_cases h1 : effUrl it = ""
    · simp [dedupUrlGo, dedupUrlState, h1, ih]
    · by_cases h2 : effUrl it ∈ seen
      · simp [dedupUrlGo, dedupUrlState, h1, h2, ih]
      · by_cases h3 : dup_check unique it = true
        · simp [dedupUrlGo, dedupUrlState, h1, h2, h3, ih]
        · simp [dedupUrlGo, dedupUrlState, h1, h2, h3, ih]

/-- dedupUrlState processes a concatenation by processing the two parts
in sequence. -/
theorem dedupUrlState_append (l1 l2 : List NewsRec) :
    ∀ (seen : List String) (unique : List NewsRec),
      dedupUrlState seen unique (l1 ++ l2)
        = dedupUrlState (dedupUrlState seen unique l1).1
            (dedupUrlState seen unique l1).2 l2 := by
  induction l1 with
  | nil => intro seen unique; simp [dedupUrlState]
  | cons it rest ih =>
    intro seen unique
    by_cases h1 : effUrl it = ""
    · simp [dedupUrlState, h1, ih]
    · by_cases h2 : effUrl it ∈ seen
      · simp [dedupUrlState, h1, h2, ih]
      · by_cases h3 : dup_check unique it = true
        · simp [dedupUrlState, h1, h2, h3, ih]
        · simp [dedupUrlState, h1, h2, h3, ih]

/-- Every url in the seen set of a reachable loop state is the url of a
record accepted by that state. -/
theorem dedupUrlState_seen_sound (items : List NewsRec) :
    ∀ (seen : List String) (unique : List NewsRec),
      (∀ s ∈ seen, ∃ u ∈ unique, effUrl u = s) →
      ∀ s ∈ (dedupUrlState seen unique items).1,
        ∃ u ∈ (dedupUrlState seen unique items).2, effUrl u = s := by
  induction items with
  | nil => intro seen unique h; simpa [dedupUrlState] using h
  | cons it rest ih =>
    intro seen unique h
    by_cases h1 : effUrl it = ""
    · simpa [dedupUrlState, h1] using ih seen unique h
    · by_cases h2 : effUrl it ∈ seen
      · simpa [dedupUrlState, h1, h2] using ih seen unique h
      · by_cases h3 : dup_check unique it = true
        · simpa [dedupUrlState, h1, h2, h3] using ih seen unique h
        · have h4 : ∀ s ∈ effUrl it :: seen, ∃ u ∈ unique ++ [it], effUrl u = s := by
            intro s hs
            rcases List.mem_cons.mp hs with hs | hs
            · exact ⟨it, List.mem_append_right _ (by simp), hs.symm⟩
            · obtain ⟨u, hu, hue⟩ := h s hs
              exact ⟨u, List.mem_append_left _ hu, hue⟩
          simpa [dedupUrlState, h1, h2, h3] using
            ih (effUrl it :: seen) (unique ++ [it]) h4

/-- C1: the output of deduplicate (word-overlap variant) and of
deduplicate_by_url_and_title (URL plus blended variant) is a subsequence
of the input (hence preserves relative order and carries each accepted
record, with its query field, unchanged); no output record is judged a
duplicate of an earlier-accepted output record; the accepted list grows
monotonically (the output on any input extends the output on each of its
prefixes, so an accepted record is never displaced by a later
duplicate); and every input record either appears in the output or was
rejected against a record accepted from the strict prefix before it
(similar title, or in the URL variant url-less, url-equal or similar) —
so each output record is the first record of the input accepted as
unique, and it keeps the query of the first pass that discovered it. -/
theorem claim_C1_dedup_order_preservation (rs : List NewsRec) :
    ((deduplicate rs).Sublist rs ∧
      (deduplicate rs).Pairwise (fun u v => is_similar v.title u.title 4 = false) ∧
      (∀ pre post : List NewsRec, rs = pre ++ post →
        ∃ t, deduplicate rs = deduplicate pre ++ t) ∧
      ∀ pre r post, rs = pre ++ r :: post →
        r ∈ deduplicate rs ∨
          ∃ u ∈ deduplicate pre, is_similar r.title u.title 4 = true) ∧
    ((deduplicate_by_url_and_title rs).Sublist rs ∧
      (deduplicate_by_url_and_title rs).Pairwise (fun u v =>
        effUrl v ≠ effUrl u ∧ title_similarity v.title u.title < similarityThreshold) ∧
      (∀ pre post : List NewsRec, rs = pre ++ post →
        ∃ t, deduplicate_by_url_and_title rs = deduplicate_by_url_and_title pre ++ t) ∧
      ∀ pre r post, rs = pre ++ r :: post →
        r ∈ deduplicate_by_url_and_title rs ∨ effUrl r = "" ∨
          (∃ u ∈ deduplicate_by_url_and_title pre, effUrl u = effUrl r) ∨
          (∃ u ∈ deduplicate_by_url_and_title pre,
            similarityThreshold ≤ title_similarity r.title u.title)) := by
  obtain ⟨t, ht, hs⟩ := dedupGo_eq_append rs []
  obtain ⟨t2, ht2, hs2⟩ := dedupUrlGo_eq_append rs [] []
  obtain ⟨q1, q2, _⟩ := dedupUrlGo_main rs [] []
    (by intro u hu; cases hu) (by intro s hs; cases hs)
    (by intro u hu; cases hu) (by simp)
  refine ⟨⟨?_, ?_, ?_, ?_⟩, ⟨?_, q1, ?_, ?_⟩⟩
  · show (dedupGo [] rs).Sublist rs
    rw [ht]; simpa using hs
  · exact dedupGo_pairwise rs [] (by simp)
  · intro pre post hsplit
    obtain ⟨t3, ht3, _⟩ := dedupGo_eq_append post (deduplicate pre)
    refine ⟨t3, ?_⟩
    rw [hsplit]
    simp only [deduplicate]
    rw [dedupGo_append]
    exact ht3
  · intro pre r post hsplit
    have hcomp : deduplicate rs = dedupGo (deduplicate pre) (r :: post) := by
      rw [hsplit]
      simp only [deduplicate]
      rw [dedupGo_append]
    by_cases h : (deduplicate pre).any (fun u => is_similar r.title u.title 4) = true
    · obtain ⟨u, hu, hsim⟩ := List.any_eq_true.mp h
      exact Or.inr ⟨u, hu, hsim⟩
    · left
      have hst : dedupGo (deduplicate pre) (r :: post)
          = dedupGo (deduplicate pre ++ [r]) post := by
        simp [dedupGo, h]
      obtain ⟨t4, ht4, _⟩ := dedupGo_eq_append post (deduplicate pre ++ [r])
      rw [hcomp, hst, ht4]
      exact List.mem_append_left _ (List.mem_append_right _ (by simp))
  · show (dedupUrlGo [] [] rs).Sublist rs
    rw [ht2]; simpa using hs2
  · intro pre post hsplit
    have e1 : deduplicate_by_url_and_title (pre ++ post)
        = dedupUrlGo (dedupUrlState [] [] pre).1 (dedupUrlState [] [] pre).2 post := by
      simp only [deduplicate_by_url_and_title]
      rw [dedupUrlGo_eq_state, dedupUrlState_append, ← dedupUrlGo_eq_state]
    have e2 : (dedupUrlState [] [] pre).2 = deduplicate_by_url_and_title pre :=
      (dedupUrlGo_eq_state pre [] []).symm
    obtain ⟨t5, ht5, _⟩ := dedupUrlGo_eq_append post
      (dedupUrlState [] [] pre).1 (dedupUrlState [] [] pre).2
    refine ⟨t5, ?_⟩
    rw [hsplit, e1, ht5, e2]
  · intro pre r post hsplit
    have e2 : (dedupUrlState [] [] pre).2 = deduplicate_by_url_and_title pre :=
      (dedupUrlGo_eq_state pre [] []).symm
    have e1 : deduplicate_by_url_and_title rs
        = dedupUrlGo (dedupUrlState [] [] pre).1 (dedupUrlState [] [] pre).2 (r :: post) := by
      rw [hsplit]
      simp only [deduplicate_by_url_and_title]
      rw [dedupUrlGo_eq_state, dedupUrlState_append, ← dedupUrlGo_eq_state]
    by_cases h1 : effUrl r = ""
    · exact Or.inr (Or.inl h1)
    · by_cases h2 : effUrl r ∈ (dedupUrlState [] [] pre).1
      · obtain ⟨u, hu, hue⟩ := dedupUrlState_seen_sound pre [] []
          (by intro s hs; cases hs) (effUrl r) h2
        exact Or.inr (Or.inr (Or.inl ⟨u, e2 ▸ hu, hue⟩))
      · by_cases h3 : dup_check (dedupUrlState [] [] pre).2 r = true
        · obtain ⟨u, hu, hd⟩ := List.any_eq_true.mp h3
          exact Or.inr (Or.inr (Or.inr ⟨u, e2 ▸ hu, of_decide_eq_true hd⟩))
        · left
          have hst : dedupUrlGo (dedupUrlState [] [] pre).1
                (dedupUrlState [] [] pre).2 (r :: post)
              = dedupUrlGo (effUrl r :: (dedupUrlState [] [] pre).1)
                  ((dedupUrlState [] [] pre).2 ++ [r]) post := by
            simp [dedupUrlGo, h1, h2, h3]
          obtain ⟨t6, ht6, _⟩ := dedupUrlGo_eq_append post
            (effUrl r :: (dedupUrlState [] [] pre).1) ((dedupUrlState [] [] pre).2 ++ [r])
          rw [e1, hst, ht6]
          exact List.mem_append_left _ (List.mem_append_right _ (by simp))

/-- Closed instance of C1 at a concrete one-record input, exercising the
subsequence components and the prefix-anchored completeness components
at the split with the empty prefix. -/
theorem claim_C1_witness :
    (deduplicate [⟨"palm oil fire", "u1", "", "p", "q1"⟩]).Sublist
        [⟨"palm oil fire", "u1", "", "p", "q1"⟩] ∧
    (deduplicate_by_url_and_title [⟨"palm oil fire", "u1", "", "p", "q1"⟩]).Sublist
        [⟨"palm oil fire", "u1", "", "p", "q1"⟩] ∧
    ([⟨"palm oil fire", "u1", "", "p", "q1"⟩] : List NewsRec)
        = [] ++ ⟨"palm oil fire", "u1", "", "p", "q1"⟩ :: [] ∧
    ((⟨"palm oil fire", "u1", "", "p", "q1"⟩ : NewsRec)
          ∈ deduplicate [⟨"palm oil fire", "u1", "", "p", "q1"⟩] ∨
      ∃ u ∈ deduplicate [],
        is_similar (NewsRec.title ⟨"palm oil fire", "u1", "", "p", "q1"⟩) u.title 4 = true) ∧
    ((⟨"palm oil fire", "u1", "", "p", "q1"⟩ : NewsRec)
          ∈ deduplicate_by_url_and_title [⟨"palm oil fire", "u1", "", "p", "q1"⟩] ∨
      effUrl ⟨"palm oil fire", "u1", "", "p", "q1"⟩ = "" ∨
      (∃ u ∈ deduplicate_by_url_and_title [],
        effUrl u = effUrl ⟨"palm oil fire", "u1", "", "p", "q1"⟩) ∨
      (∃ u ∈ deduplicate_by_url_and_title [],
        similarityThreshold ≤ title_similarity
          (NewsRec.title ⟨"palm oil fire", "u1", "", "p", "q1"⟩) u.title)) :=
  ⟨(claim_C1_dedup_order_preservation [⟨"palm oil fire", "u1", "", "p", "q1"⟩]).1.1,
   (claim_C1_dedup_order_preservation [⟨"palm oil fire", "u1", "", "p", "q1"⟩]).2.1,
   rfl,
   (claim_C1_dedup_order_preservation [⟨"palm oil fire", "u1", "", "p", "q1"⟩]).1.2.2.2
     [] ⟨"palm oil fire", "u1", "", "p", "q1"⟩ [] rfl,
   (claim_C1_dedup_order_preservation [⟨"palm oil fire", "u1", "", "p", "q1"⟩]).2.2.2.2
     [] ⟨"palm oil fire", "u1", "", "p", "q1"⟩ [] rfl⟩

/-- C2: both deduplication functions are idempotent: applied to their own
output they return it unchanged. -/
theorem claim_C2_dedup_idempotent (rs : List NewsRec) :
    deduplicate (deduplicate rs) = deduplicate rs ∧
    deduplicate_by_url_and_title (deduplicate_by_url_and_title rs)
      = deduplicate_by_url_and_title rs := by
  constructor
  · have hpw := dedupGo_pairwise rs [] (by simp)
    have := dedupGo_fixed (deduplicate rs) [] (by intro u hu; cases hu) hpw
    simpa [deduplicate] using this
  · obtain ⟨q1, q2, _⟩ := dedupUrlGo_main rs [] []
      (by intro u hu; cases hu) (by intro s hs; cases hs)
      (by intro u hu; cases hu) (by simp)
    have := dedupUrlGo_fixed (deduplicate_by_url_and_title rs) [] []
      q2 q1 (by intro v _ hv; cases hv) (by intro u hu; cases hu)
    simpa [deduplicate_by_url_and_title] using this

/-- Closed instance of C2 at a concrete input list. -/
theorem claim_C2_witness :
    deduplicate (deduplicate [⟨"palm oil fire", "u1", "", "p", "q1"⟩])
        = deduplicate [⟨"palm oil fire", "u1", "", "p", "q1"⟩] ∧
    deduplicate_by_url_and_title
        (deduplicate_by_url_and_title [⟨"palm oil fire", "u1", "", "p", "q1"⟩])
      = deduplicate_by_url_and_title [⟨"palm oil fire", "u1", "", "p", "q1"⟩] :=
  claim_C2_dedup_idempotent [⟨"palm oil fire", "u1", "", "p", "q1"⟩]

/-- C3: in deduplicate_by_url_and_title, a record whose url already
belongs to the seen-URL set is rejected identically for every possible
title (so its title similarity is never consulted), and two records
carrying the same nonempty url collapse to the first one for every pair
of titles, however dissimilar. -/
theorem claim_C3_url_short_circuit :
    (∀ (seen : List String) (unique : List NewsRec) (it : NewsRec)
        (rest : List NewsRec), effUrl it ∈ seen →
        dedupUrlGo seen unique (it :: rest) = dedupUrlGo seen unique rest) ∧
    (∀ t1 t2 u l1 l2 p1 p2 q1 q2 : String, u ≠ "" →
        deduplicate_by_url_and_title
            [⟨t1, u, l1, p1, q1⟩, ⟨t2, u, l2, p2, q2⟩]
          = [⟨t1, u, l1, p1, q1⟩]) := by
  constructor
  · intro seen unique it rest hmem
    by_cases h1 : effUrl it = ""
    · simp [dedupUrlGo, h1]
    · simp [dedupUrlGo, h1, hmem]
  · intro t1 t2 u l1 l2 p1 p2 q1 q2 hu
    simp [deduplicate_by_url_and_title, dedupUrlGo, dup_check, effUrl, hu]

/-- Closed instance of C3: two records with the same nonempty url and
completely dissimilar titles collapse to the first. -/
theorem claim_C3_witness :
    ("http://x" : String) ≠ "" ∧
    deduplicate_by_url_and_title
        [⟨"aaaa", "http://x", "", "p1", "q1"⟩, ⟨"zzzz", "http://x", "", "p2", "q2"⟩]
      = [⟨"aaaa", "http://x", "", "p1", "q1"⟩] :=
  ⟨by decide, claim_C3_url_short_circuit.2 "aaaa" "zzzz" "http://x" "" "" "p1" "p2"
    "q1" "q2" (by decide)⟩

/-- C4: the similarity test used by deduplicate (is_similar at
min_common = 4) holds iff the lowercase word-token sets of the two
titles share at least 4 tokens; titles sharing exactly 4 tokens are
merged by deduplicate and titles sharing exactly 3 are not. -/
theorem claim_C4_word_overlap_threshold :
    (∀ t1 t2 : String, is_similar t1 t2 4 = true ↔
        4 ≤ ((normalize_title t1) ∩ (normalize_title t2)).card) ∧
    ((normalize_title "Palm oil deforestation fire Indonesia"
        ∩ normalize_title "Palm oil fire Indonesia report").card = 4 ∧
      is_similar "Palm oil deforestation fire Indonesia"
        "Palm oil fire Indonesia report" 4 = true) ∧
    ((normalize_title "Palm oil deforestation blaze Indonesia"
        ∩ normalize_title "Palm oil fire Indonesia report").card = 3 ∧
      is_similar "Palm oil deforestation blaze Indonesia"
        "Palm oil fire Indonesia report" 4 = false) ∧
    deduplicate [⟨"Palm oil deforestation fire Indonesia", "u1", "", "p", "q1"⟩,
                 ⟨"Palm oil fire Indonesia report", "u2", "", "p", "q2"⟩]
      = [⟨"Palm oil deforestation fire Indonesia", "u1", "", "p", "q1"⟩] ∧
    deduplicate [⟨"Palm oil deforestation blaze Indonesia", "u1", "", "p", "q1"⟩,
                 ⟨"Palm oil fire Indonesia report", "u2", "", "p", "q2"⟩]
      = [⟨"Palm oil deforestation blaze Indonesia", "u1", "", "p", "q1"⟩,
         ⟨"Palm oil fire Indonesia report", "u2", "", "p", "q2"⟩] := by
  refine ⟨?_, ⟨by decide, by decide⟩, ⟨by decide, by decide⟩, by decide, by decide⟩
  intro t1 t2
  simp [is_similar]

/-- C10: every output record of deduplicate_by_url_and_title has a
nonempty url (a record whose url and link fields are both empty is never
accepted), and no two output records have equal urls. -/
theorem claim_C10_output_urls (items : List NewsRec) :
    (∀ r ∈ deduplicate_by_url_and_title items, effUrl r ≠ "") ∧
    (deduplicate_by_url_and_title items).Pairwise (fun u v => effUrl u ≠ effUrl v) := by
  obtain ⟨q1, q2, _⟩ := dedupUrlGo_main items [] [] (by intro u hu; cases hu)
    (by intro s hs; cases hs) (by intro u hu; cases hu) (by simp)
  exact ⟨q2, q1.imp (fun h => (h.1).symm)⟩

/-- Closed instance of C10 at a concrete record. -/
theorem claim_C10_witness :
    (⟨"t", "http://x", "", "p", "q"⟩ : NewsRec) ∈
        deduplicate_by_url_and_title [⟨"t", "http://x", "", "p", "q"⟩] ∧
    effUrl (⟨"t", "http://x", "", "p", "q"⟩ : NewsRec) ≠ "" :=
  ⟨by decide,
   (claim_C10_output_urls [⟨"t", "http://x", "", "p", "q"⟩]).1 _ (by decide)⟩

/-- C6: is_recent holds iff a parseable publication instant exists and
is at least now minus the day window; the lower bound is inclusive, an
instant one second older fails, future instants pass (no upper bound),
and an entry with no parseable timestamp is never recent. -/
theorem claim_C6_is_recent (e : FeedEntry) (now : Int) (days : Nat) (hd : 0 < days) :
    (is_recent e now days = true ↔
      ∃ t, e.published_parsed = some t ∧ now - 86400 * (days : Int) ≤ t) ∧
    is_recent ⟨some (now - 86400 * (days : Int))⟩ now days = true ∧
    is_recent ⟨some (now - 86400 * (days : Int) - 1)⟩ now days = false ∧
    (∀ t : Int, now ≤ t → is_recent ⟨some t⟩ now days = true) ∧
    is_recent ⟨none⟩ now days = false := by
  refine ⟨?_, ?_, ?_, ?_, rfl⟩
  · cases h : e.published_parsed with
    | none => simp [is_recent, h]
    | some t => simp [is_recent, h]
  · simp [is_recent]
  · simp [is_recent]
  · intro t ht
    have h0 : now - 86400 * (days : Int) ≤ t := by omega
    simp [is_recent, h0]

/-- Closed instance of C6 at a concrete entry, clock and window. -/
theorem claim_C6_witness :
    0 < 14 ∧
    ((is_recent ⟨some 0⟩ 1000 14 = true ↔
      ∃ t, (⟨some 0⟩ : FeedEntry).published_parsed = some t ∧
        1000 - 86400 * ((14 : Nat) : Int) ≤ t) ∧
    is_recent ⟨some (1000 - 86400 * ((14 : Nat) : Int))⟩ 1000 14 = true ∧
    is_recent ⟨some (1000 - 86400 * ((14 : Nat) : Int) - 1)⟩ 1000 14 = false ∧
    (∀ t : Int, 1000 ≤ t → is_recent ⟨some t⟩ 1000 14 = true) ∧
    is_recent ⟨none⟩ 1000 14 = false) :=
  ⟨by decide, claim_C6_is_recent ⟨some 0⟩ 1000 14 (by decide)⟩

/-- C5: for nonempty titles, title_similarity is exactly 0.6 times the
sequence ratio of the lowercased titles plus 0.4 times the token-overlap
ratio as the specification words it; an empty (or missing) title on
either side scores 0 without error; and the duplicate judgement inside
deduplicate_by_url_and_title holds iff the blended score of the
candidate against some accepted record reaches the 0.85 threshold. -/
theorem claim_C5_blended_similarity :
    (∀ a b : String, a ≠ "" → b ≠ "" →
        title_similarity a b
          = 6 / 10 * seqRatio (lowerStr a) (lowerStr b) + 4 / 10 * overlap_ratio a b) ∧
    (∀ b : String, title_similarity "" b = 0 ∧ title_similarity b "" = 0) ∧
    (∀ (unique : List NewsRec) (it : NewsRec), dup_check unique it = true ↔
        ∃ u ∈ unique, similarityThreshold ≤ title_similarity it.title u.title) := by
  refine ⟨?_, ?_, ?_⟩
  · intro a b ha hb
    simp only [title_similarity]
    rw [if_neg (by simp [ha, hb])]
    by_cases h : normalize_title a ≠ ∅ ∨ normalize_title b ≠ ∅
    · rw [if_pos h]
      simp only [overlap_ratio]
    · rw [if_neg h]
      push_neg at h
      simp [overlap_ratio, h.1, h.2]
  · intro b
    constructor
    · simp [title_similarity]
    · simp [title_similarity]
  · intro unique it
    simp [dup_check]

/-- Closed instance of C5 at two concrete nonempty titles. -/
theorem claim_C5_witness :
    ("palm" : String) ≠ "" ∧ ("sawit" : String) ≠ "" ∧
    title_similarity "palm" "sawit"
      = 6 / 10 * seqRatio (lowerStr "palm") (lowerStr "sawit")
        + 4 / 10 * overlap_ratio "palm" "sawit" :=
  ⟨by decide, by decide,
   claim_C5_blended_similarity.1 "palm" "sawit" (by decide) (by decide)⟩

/-- Value of the blended score on the asymmetry example, left to right:
the matcher finds only the single crossing match for the letter a, so
the sequence ratio is 2*1/10 and the token sets are disjoint. -/
theorem ts_axbyc_bucva : title_similarity "axbyc" "bucva" = 3 / 25 := by
  have m : seqMatchTotal (lowerStr "axbyc").data (lowerStr "bucva").data = 1 := by decide
  have hc : (normalize_title "axbyc" ∩ normalize_title "bucva").card = 0 := by decide
  have l1 : (lowerStr "axbyc").data.length = 5 := by decide
  have l2 : (lowerStr "bucva").data.length = 5 := by decide
  have hne : normalize_title "axbyc" ≠ ∅ := by decide
  simp only [title_similarity, seqRatio, m, hc, l1, l2]
  rw [if_neg (by decide), if_pos (Or.inl hne)]
  norm_num

/-- Value of the blended score on the asymmetry example, right to left:
here the matcher finds the match for b and then the match for c in the
remaining window, so the sequence ratio is 2*2/10. -/
theorem ts_bucva_axbyc : title_similarity "bucva" "axbyc" = 6 / 25 := by
  have m : seqMatchTotal (lowerStr "bucva").data (lowerStr "axbyc").data = 2 := by decide
  have hc : (normalize_title "bucva" ∩ normalize_title "axbyc").card = 0 := by decide
  have l1 : (lowerStr "bucva").data.length = 5 := by decide
  have l2 : (lowerStr "axbyc").data.length = 5 := by decide
  have hne : normalize_title "bucva" ≠ ∅ := by decide
  simp only [title_similarity, seqRatio, m, hc, l1, l2]
  rw [if_neg (by decide), if_pos (Or.inl hne)]
  norm_num

/-- C7 counterexample: the blended score of google_rss_idn.py is not
symmetric; on the concrete titles axbyc and bucva the two orders of
comparison give 3/25 and 6/25, because the SequenceMatcher of difflib picks
the crossing match differently in the two orders. -/
theorem claim_C7_counterexample :
    title_similarity "axbyc" "bucva" ≠ title_similarity "bucva" "axbyc" := by
  rw [ts_axbyc_bucva, ts_bucva_axbyc]
  norm_num

/-- C7 amended: the word-overlap test is_similar is symmetric for every
threshold, and in the blended variant the token-overlap component is
symmetric; the sequence-ratio component, and with it title_similarity
itself, is not symmetric in general. -/
theorem claim_C7_symmetry_amended :
    (∀ a b : String, ∀ k : Nat, is_similar a b k = is_similar b a k) ∧
    (∀ a b : String, overlap_ratio a b = overlap_ratio b a) := by
  constructor
  · intro a b k
    unfold is_similar
    rw [Finset.inter_comm]
  · intro a b
    unfold overlap_ratio
    rw [Finset.inter_comm, Nat.min_comm]

/- Helper lemmas about quote_plus for the query-encoding claim. -/

/-- The UTF-8 encoding of a character is never empty. -/
theorem utf8Bytes_len_pos (c : Char) : 1 ≤ (utf8Bytes c).length := by
  simp only [utf8Bytes]
  split <;> try split <;> try split
  all_goals simp

/-- Length of a run of %XX escapes. -/
theorem escape_len (L : List Nat) :
    (L.flatMap (fun bt => ['%', hexDigitChar (bt / 16), hexDigitChar (bt % 16)])).length
      = 3 * L.length := by
  induction L with
  | nil => simp
  | cons x xs ih =>
    simp only [List.flatMap_cons, List.length_append, List.length_cons,
      List.length_nil, ih]
    omega

/-- A character that is neither safe nor a space expands to one %XX
escape per UTF-8 byte. -/
theorem qpChar_unsafe_len (c : Char) (h1 : qpSafe c = false) (h2 : c ≠ ' ') :
    (qpChar c).length = 3 * (utf8Bytes c).length := by
  unfold qpChar
  rw [if_neg (by simp [h1]), if_neg h2]
  exact escape_len _

/-- quote_plus never erases a character. -/
theorem qpChar_len_pos (c : Char) : 1 ≤ (qpChar c).length := by
  by_cases h : qpSafe c = true
  · simp [qpChar, h]
  · by_cases h2 : c = ' '
    · subst h2; decide
    · rw [qpChar_unsafe_len c (by simpa using h) h2]
      have := utf8Bytes_len_pos c
      omega

/-- A character whose quote_plus image is a single character is safe or
a space. -/
theorem qpChar_len_eq_one (c : Char) (h : (qpChar c).length = 1) :
    qpSafe c = true ∨ c = ' ' := by
  by_contra hcon
  push_neg at hcon
  obtain ⟨h1, h2⟩ := hcon
  rw [qpChar_unsafe_len c (by simpa using h1) h2] at h
  have := utf8Bytes_len_pos c
  omega

/-- On a safe character or a space, quote_plus agrees with the
space-to-plus character map. -/
theorem qpChar_of_safe_or_space (c : Char) (h : qpSafe c = true ∨ c = ' ') :
    qpChar c = [if c = ' ' then '+' else c] := by
  rcases h with h | h
  · have hs : c ≠ ' ' := by
      intro he
      rw [he] at h
      exact absurd h (by decide)
    rw [if_neg hs]
    unfold qpChar
    rw [if_pos h]
  · subst h
    unfold qpChar
    rw [if_neg (by decide)]
    simp

/-- quote_plus at least preserves length. -/
theorem flatMap_qp_len_ge (l : List Char) : l.length ≤ (l.flatMap qpChar).length := by
  induction l with
  | nil => simp
  | cons c cs ih =>
    simp only [List.flatMap_cons, List.length_append, List.length_cons]
    have := qpChar_len_pos c
    omega

/-- If quote_plus preserves the length of a whole list, it maps every
character to a single character. -/
theorem flatMap_qp_len_eq (l : List Char) (h : (l.flatMap qpChar).length = l.length) :
    ∀ c ∈ l, (qpChar c).length = 1 := by
  induction l with
  | nil => intro c hc; cases hc
  | cons c0 cs ih =>
    simp only [List.flatMap_cons, List.length_append, List.length_cons] at h
    have h1 := qpChar_len_pos c0
    have h2 := flatMap_qp_len_ge cs
    intro c hc
    rcases List.mem_cons.mp hc with hc | hc
    · subst hc; omega
    · exact ih (by omega) c hc

/-- On a list of safe-or-space characters, quote_plus is the
space-to-plus character map. -/
theorem map_eq_flatMap_qp (l : List Char) (h : ∀ c ∈ l, qpSafe c = true ∨ c = ' ') :
    l.flatMap qpChar = l.map (fun c => if c = ' ' then '+' else c) := by
  induction l with
  | nil => simp
  | cons c cs ih =>
    simp only [List.flatMap_cons, List.map_cons]
    rw [qpChar_of_safe_or_space c (h c (by simp)),
      ih (fun d hd => h d (List.mem_cons_of_mem _ hd))]
    simp

/-- The space-replacement of the en/Spanish fetch path agrees with
percent-encoding exactly on queries made of safe characters and
spaces. -/
theorem en_encoding_eq_quote_plus_iff (q : String) :
    en_fetch_query_encoding q = quote_plus q ↔
      ∀ c ∈ q.data, qpSafe c = true ∨ c = ' ' := by
  constructor
  · intro h c hc
    have hd : q.data.map (fun d => if d = ' ' then '+' else d) = q.data.flatMap qpChar :=
      congrArg String.data h
    apply qpChar_len_eq_one
    apply flatMap_qp_len_eq q.data _ c hc
    rw [← hd]
    simp
  · intro h
    exact congrArg String.mk (map_eq_flatMap_qp q.data h).symm

/-- C8 counterexample: the query-to-URL step of google_rss_en.py (and
google_rss_spanish.py) is query.replace(" ", "+"), which on the query
string "Procter & Gamble corruption" generated by the company-issue
pass of the en variant differs from the percent-encoding of the whole
assembled query (the ampersand is embedded unescaped). -/
theorem claim_C8_counterexample :
    en_fetch_query_encoding "Procter & Gamble corruption"
      ≠ quote_plus "Procter & Gamble corruption" := by decide

/-- C8 amended: only the Indonesian variant percent-encodes the whole
assembled query string (its collector calls build_query on the single
already-assembled query, and build_query quote_plus-encodes the joined
string as one unit); the en and Spanish fetch paths merely replace each
space with a plus, which coincides with percent-encoding exactly when
every character of the query is quote-safe or a space. -/
theorem claim_C8_query_encoding_amended :
    (∀ q : String, build_query [q] = quote_plus q) ∧
    (∀ parts : List String, build_query parts = quote_plus (spaceJoin parts)) ∧
    (∀ q : String, en_fetch_query_encoding q = quote_plus q ↔
      ∀ c ∈ q.data, qpSafe c = true ∨ c = ' ') :=
  ⟨fun _ => rfl, fun _ => rfl, en_encoding_eq_quote_plus_iff⟩

/-- Closed instance of C8 (amended) at a concrete query. -/
theorem claim_C8_witness :
    build_query ["sawit api"] = quote_plus "sawit api" :=
  claim_C8_query_encoding_amended.1 "sawit api"

/-- Data of a string concatenation. -/
theorem strData_append (s t : String) : (s ++ t).data = s.data ++ t.data := by simp

/-- Unfolding of orJoin on a list with at least two elements. -/
theorem aliasPart_cons₂ (x y : String) (ys : List String) :
    aliasPart (x :: y :: ys)
      = ("\"" ++ x ++ "\"") ++ " OR " ++ aliasPart (y :: ys) := rfl

/-- A quoted alias is a substring of the OR-joined alias group. -/
theorem aliasPart_substring (al : List String) :
    ∀ a ∈ al, ∃ pre post : List Char,
      (aliasPart al).data = pre ++ ("\"" ++ a ++ "\"").data ++ post := by
  induction al with
  | nil => intro a ha; cases ha
  | cons x rest ih =>
    intro a ha
    rcases List.mem_cons.mp ha with ha | ha
    · subst ha
      cases rest with
      | nil =>
        refine ⟨[], [], ?_⟩
        simp [aliasPart, orJoin]
      | cons y ys =>
        refine ⟨[], (" OR " ++ aliasPart (y :: ys)).data, ?_⟩
        rw [aliasPart_cons₂, strData_append, strData_append, strData_append]
        simp
    · have hne : rest ≠ [] := by intro h; subst h; cases ha
      obtain ⟨pre, post, hpp⟩ := ih a ha
      refine ⟨("\"" ++ x ++ "\"" ++ " OR ").data ++ pre, post, ?_⟩
      obtain ⟨y, ys, rfl⟩ : ∃ y ys, rest = y :: ys := by
        cases rest with
        | nil => cases hne rfl
        | cons y ys => exact ⟨y, ys, rfl⟩
      rw [aliasPart_cons₂, strData_append, strData_append, hpp, strData_append]
      simp

/-- Substring containment survives appending on the right. -/
theorem substring_append_right (s t a : String)
    (h : ∃ pre post : List Char, s.data = pre ++ a.data ++ post) :
    ∃ pre post : List Char, (s ++ t).data = pre ++ a.data ++ post := by
  obtain ⟨pre, post, hp⟩ := h
  exact ⟨pre, post ++ t.data, by rw [strData_append, hp]; simp⟩

/-- Substring containment survives prepending on the left. -/
theorem substring_append_left (s t a : String)
    (h : ∃ pre post : List Char, t.data = pre ++ a.data ++ post) :
    ∃ pre post : List Char, (s ++ t).data = pre ++ a.data ++ post := by
  obtain ⟨pre, post, hp⟩ := h
  exact ⟨s.data ++ pre, post, by rw [strData_append, hp]; simp⟩

/-- C9: generation over an empty alias map or an empty issue list yields
no queries; every generated query is nonempty; and every generated query
is one of the three source templates for some company of the map and
some issue of the list, with each alias of that company embedded as a
quoted phrase inside the single parenthesized OR-group. -/
theorem claim_C9_company_queries
    (aliases_map : List (String × List String)) (issues : List String) :
    (company_queries_from_aliases [] issues = []) ∧
    (company_queries_from_aliases aliases_map [] = []) ∧
    (∀ q ∈ company_queries_from_aliases aliases_map issues, q ≠ "") ∧
    (∀ q ∈ company_queries_from_aliases aliases_map issues,
      ∃ ca ∈ aliases_map, ∃ issue ∈ issues,
        (q = "(" ++ aliasPart ca.2 ++ ") " ++ issue ++ " sawit" ∨
         q = "(" ++ aliasPart ca.2 ++ ") " ++ issue ++ " \"minyak sawit\"" ∨
         q = "(" ++ aliasPart ca.2 ++ ") " ++ issue) ∧
        ∀ a ∈ ca.2, ∃ pre post : List Char,
          q.data = pre ++ ("\"" ++ a ++ "\"").data ++ post) := by
  have hshape : ∀ q ∈ company_queries_from_aliases aliases_map issues,
      ∃ ca ∈ aliases_map, ∃ issue ∈ issues,
        (q = "(" ++ aliasPart ca.2 ++ ") " ++ issue ++ " sawit" ∨
         q = "(" ++ aliasPart ca.2 ++ ") " ++ issue ++ " \"minyak sawit\"" ∨
         q = "(" ++ aliasPart ca.2 ++ ") " ++ issue) := by
    intro q hq
    unfold company_queries_from_aliases at hq
    obtain ⟨ca, hca, hq⟩ := List.mem_flatMap.mp hq
    obtain ⟨issue, hiss, hq⟩ := List.mem_flatMap.mp hq
    refine ⟨ca, hca, issue, hiss, ?_⟩
    simpa using hq
  refine ⟨rfl, ?_, ?_, ?_⟩
  · simp [company_queries_from_aliases]
  · intro q hq
    obtain ⟨ca, _, issue, _, hcases⟩ := hshape q hq
    rcases hcases with h | h | h <;>
    · subst h
      intro he
      have hd := congrArg String.data he
      simp [strData_append, show "(".data = ['('] from rfl,
        show ("" : String).data = [] from rfl] at hd
  · intro q hq
    obtain ⟨ca, hca, issue, hiss, hcases⟩ := hshape q hq
    refine ⟨ca, hca, issue, hiss, hcases, ?_⟩
    intro a ha
    have hsub := aliasPart_substring ca.2 a ha
    rcases hcases with h | h | h
    · subst h
      exact substring_append_right _ _ _ (substring_append_right _ _ _
        (substring_append_right _ _ _ (substring_append_left _ _ _ hsub)))
    · subst h
      exact substring_append_right _ _ _ (substring_append_right _ _ _
        (substring_append_right _ _ _ (substring_append_left _ _ _ hsub)))
    · subst h
      exact substring_append_right _ _ _
        (substring_append_right _ _ _ (substring_append_left _ _ _ hsub))

/-- Closed instance of C9 at a one-company alias map with two aliases
and one issue. -/
theorem claim_C9_witness :
    ("(\"Wilmar\" OR \"Wilmar International\") deforestasi sawit" : String) ∈
        company_queries_from_aliases [("Wilmar", ["Wilmar", "Wilmar International"])]
          ["deforestasi"] ∧
    ("(\"Wilmar\" OR \"Wilmar International\") deforestasi sawit" : String) ≠ "" :=
  ⟨by decide,
   (claim_C9_company_queries [("Wilmar", ["Wilmar", "Wilmar International"])]
      ["deforestasi"]).2.2.1 _ (by decide)⟩
